import Mathlib

/-!
Shallow embedding of the scheduling engine in `src/app/schedule.js`
(class `Schedule`): construction of the hourly price/capacity table from
tariff rate intervals, ranking of devices, greedy placement of each device
into the cheapest feasible contiguous run of hours, cost bookkeeping and
failure diagnostics.

JavaScript numbers are modelled as rationals, JS arrays as lists, the JS
stable `Array.prototype.sort` as `List.insertionSort` (a stable sort) on
the relation `comparator a b <= 0`, and the JS object used for per-device
cost accumulation as an association list with unique keys.  A thrown JS
exception is modelled with `Except`.  The fields `this.schedule` and
`this.currentPowerForHour` that `init()` fills are written by the source
but never read afterwards, so they are omitted from the state.
-/

/-- A tariff rate interval (input record `{from, to, value}`).  The source
field names `from`/`to` are Lean keywords, so they are rendered as
`rfrom`/`rto`. -/
structure Rate where
  rfrom : ℤ
  rto : ℤ
  value : ℚ
deriving DecidableEq

/-- An input device record `{id, name, power, duration, mode}`; a missing
`mode` property is `none`. -/
structure Device where
  id : String
  name : String
  power : ℚ
  duration : ℕ
  mode : Option String
deriving DecidableEq

/-- One row of `this.hoursTable` as built by `createHoursTable`. -/
structure HourItem where
  hour : ℕ
  power : ℚ
  mode : String
  workers : List String
  workers_id : List String
  price : ℚ
deriving DecidableEq

/-- The object `{...firstHour, totalPrice}` built in
`getReallyAvailableHours`: a copy of an hour row extended with the total
price of the simulated run. -/
structure CalcHour extends HourItem where
  totalPrice : ℚ
deriving DecidableEq

/-- Dummy row standing for the JS `undefined` that `shift()` yields on an
empty array (never reached: the empty case is checked first). -/
instance : Inhabited CalcHour := ⟨⟨⟨0, 0, "", [], [], 0⟩, 0⟩⟩

/-- `getModeForHour(time)`: `(time < 7 || time >= 21) ? 'night' : 'day'`.
The source first throws when the argument is missing; a missing argument
cannot be expressed in a typed embedding, so only the total branch is
modelled. -/
def getModeForHour (time : ℕ) : String :=
  if time < 7 ∨ 21 ≤ time then "night" else "day"

/-- The boolean core of `isTimeIncludes(time, from, to)` (the branch taken
when no exception is thrown). -/
def timeIncludesB (time tfrom tto : ℤ) : Bool :=
  if tfrom > tto then
    decide (tfrom ≤ time) || (decide (0 ≤ time) && decide (time < tto))
  else
    decide (tfrom ≤ time) && decide (time < tto)

/-- `isTimeIncludes(time, from, to)`: throws when `time > 23`, otherwise
returns the interval-membership boolean. -/
def isTimeIncludes (time tfrom tto : ℤ) : Except String Bool :=
  if time > 23 then
    Except.error "Time argument can not be bigger than 23 hours"
  else
    Except.ok (timeIncludesB time tfrom tto)

/-- `getRatesForHour(hour)`: `this.rates.filter(rate =>
this.isTimeIncludes(hour, rate.from, rate.to))`.  Every call site passes
`hour < 24`, so the exception branch of `isTimeIncludes` is unreachable
and the boolean core is used directly. -/
def getRatesForHour (rates : List Rate) (hour : ℕ) : List Rate :=
  rates.filter (fun rate => timeIncludesB (hour : ℤ) rate.rfrom rate.rto)

/-- The `price` field computation in `createHoursTable`:
`getRatesForHour(i).reduce((price, rate) => rate.value < price ?
rate.value : price, 999)`. -/
def hourPrice (rates : List Rate) (hour : ℕ) : ℚ :=
  (getRatesForHour rates hour).foldl
    (fun price rate => if rate.value < price then rate.value else price) 999

/-- The row pushed for hour `i` in `createHoursTable`. -/
def initHourItem (maxPower : ℚ) (rates : List Rate) (i : ℕ) : HourItem :=
  { hour := i
    power := maxPower
    mode := getModeForHour i
    workers := []
    workers_id := []
    price := hourPrice rates i }

/-- Comparator `(a, b) => a.price - b.price` of `createHoursTable`,
as the relation `comparator a b <= 0`. -/
def priceLe (a b : HourItem) : Prop := a.price ≤ b.price

instance : DecidableRel priceLe := fun a b =>
  inferInstanceAs (Decidable (a.price ≤ b.price))

/-- `createHoursTable()`: build the 24 rows and sort them by price. -/
def createHoursTable (maxPower : ℚ) (rates : List Rate) : List HourItem :=
  List.insertionSort priceLe ((List.range 24).map (initHourItem maxPower rates))

/-- Comparator `(a, b) => a.power * a.duration - b.power * b.duration` of
`createDevicesTable`, as the relation `comparator a b <= 0`. -/
def devLe (a b : Device) : Prop :=
  a.power * a.duration ≤ b.power * b.duration

instance : DecidableRel devLe := fun a b =>
  inferInstanceAs (Decidable (a.power * a.duration ≤ b.power * b.duration))

/-- `createDevicesTable()`: copy the device list, sort ascending by
`power * duration`, then reverse. -/
def createDevicesTable (devices : List Device) : List Device :=
  (List.insertionSort devLe devices).reverse

/-- `getHourItem(hour)`: the first row of the table whose `hour` field is
`hour`.  In the source a missing hour makes the lookup yield `undefined`
and crash at the use site; every reachable table contains each hour
exactly once, so the fallback row is irrelevant. -/
def getHourItem (table : List HourItem) (hour : ℕ) : HourItem :=
  match table.find? (fun item => item.hour == hour) with
  | some item => item
  | none => { hour := hour, power := 0, mode := "", workers := [],
              workers_id := [], price := 0 }

/-- Comparator `(a, b) => a.price - b.price || a.hour - b.hour` of
`getPotentialHours`, as the relation `comparator a b <= 0`. -/
def potLe (a b : HourItem) : Prop :=
  a.price < b.price ∨ (a.price = b.price ∧ a.hour ≤ b.hour)

instance : DecidableRel potLe := fun a b =>
  inferInstanceAs (Decidable (a.price < b.price ∨ (a.price = b.price ∧ a.hour ≤ b.hour)))

/-- `getPotentialHours(device)`: restrict the table to the device mode
(when one is present), keep hours with enough remaining power, and sort
by price then hour. -/
def getPotentialHours (table : List HourItem) (device : Device) : List HourItem :=
  let availableHours : List HourItem :=
    match device.mode with
    | some m => table.filter (fun hour => hour.mode == m)
    | none => table
  let availableHours := availableHours.filter (fun hour : HourItem => device.power ≤ hour.power)
  List.insertionSort potLe availableHours

/-- The single wrap-around step `if (nextHour >= 24) nextHour -= 24` used
in `getReallyAvailableHours` and `scheduleDevice`. -/
def wrapHour (h : ℕ) : ℕ := if 24 ≤ h then h - 24 else h

/-- The inner loop of `getReallyAvailableHours`: hours
`startHoursNum + 1 + i` for `i < duration - 1` must all pass the mode
check (when the device has a mode) and the power check; the source breaks
out of the loop at the first failure. -/
def feasTail (table : List HourItem) (device : Device) (startHoursNum : ℕ) : Bool :=
  (List.range (device.duration - 1)).all (fun i =>
    let nextHour := wrapHour (startHoursNum + 1 + i)
    (match device.mode with
     | some m => getModeForHour nextHour == m
     | none => true)
    && decide (device.power ≤ (getHourItem table nextHour).power))

/-- The accumulated `hourTotalPrice` of `getReallyAvailableHours` for a
run that passes all checks: the first-hour term is the fold seed and each
later hour of the run adds its own term. -/
def runTotalPrice (table : List HourItem) (device : Device) (firstHour : HourItem) : ℚ :=
  (List.range (device.duration - 1)).foldl
    (fun acc i => acc + (getHourItem table (wrapHour (firstHour.hour + 1 + i))).price
        * device.power / 1000)
    (firstHour.price * device.power / 1000)

/-- Comparator `(a, b) => a.totalPrice - b.totalPrice || a.hour - b.hour`
of `getReallyAvailableHours`, as the relation `comparator a b <= 0`. -/
def contLe (a b : CalcHour) : Prop :=
  a.totalPrice < b.totalPrice ∨ (a.totalPrice = b.totalPrice ∧ a.hour ≤ b.hour)

instance : DecidableRel contLe := fun a b =>
  inferInstanceAs (Decidable (a.totalPrice < b.totalPrice ∨
    (a.totalPrice = b.totalPrice ∧ a.hour ≤ b.hour)))

/-- `getReallyAvailableHours(availableHours, device)`: keep the candidate
start hours whose whole run passes the checks, attach the accumulated
total price, and sort by total price then hour. -/
def getReallyAvailableHours (table : List HourItem) (availableHours : List HourItem)
    (device : Device) : List CalcHour :=
  List.insertionSort contLe
    (availableHours.filterMap (fun firstHour =>
      if feasTail table device firstHour.hour then
        some { toHourItem := firstHour,
               totalPrice := runTotalPrice table device firstHour }
      else none))

/-- The mutable engine state: the hours table, the two cost accumulators
and the diagnostics list. -/
structure State where
  hoursTable : List HourItem
  totalMoneySpent : ℚ
  deviceMoneySpent : List (String × ℚ)
  errors : List String
deriving DecidableEq

/-- In-place mutation of the unique table row with the given hour (the
source writes through the reference returned by `getHourItem`). -/
def updateHourItem (table : List HourItem) (hour : ℕ) (f : HourItem → HourItem) :
    List HourItem :=
  table.map (fun item => if item.hour = hour then f item else item)

/-- `this.deviceMoneySpent[id] += amount`, creating the key with value 0
first when it is absent (JS object keys are unique; insertion order is
first-write order). -/
def addSpent (spent : List (String × ℚ)) (id : String) (amount : ℚ) :
    List (String × ℚ) :=
  if spent.any (fun p => p.1 == id) then
    spent.map (fun p => if p.1 == id then (p.1, p.2 + amount) else p)
  else
    spent ++ [(id, amount)]

/-- One iteration of the loop in `scheduleDevice`: decrement the power of
the target hour, append the device to its occupant lists, and add
`device.power / 1000 * price` to both cost accumulators. -/
def commitHour (device : Device) (s : State) (targetHour : ℕ) : State :=
  let price := (getHourItem s.hoursTable targetHour).price
  { s with
    hoursTable := updateHourItem s.hoursTable targetHour (fun it =>
      { it with power := it.power - device.power
                workers := it.workers ++ [device.name]
                workers_id := it.workers_id ++ [device.id] })
    totalMoneySpent := s.totalMoneySpent + device.power / 1000 * price
    deviceMoneySpent := addSpent s.deviceMoneySpent device.id
      (device.power / 1000 * price) }

/-- Comparator `(a, b) => a.hour - b.hour` used at the end of
`scheduleDevice`, as the relation `comparator a b <= 0`. -/
def hourLe (a b : HourItem) : Prop := a.hour ≤ b.hour

instance : DecidableRel hourLe := fun a b =>
  inferInstanceAs (Decidable (a.hour ≤ b.hour))

/-- `scheduleDevice(startHour, device)`: commit each hour of the run
(`startHour.hour + i` wrapped at midnight, for `i < duration`), then
re-sort the table by ascending hour. -/
def scheduleDevice (s : State) (startHour : CalcHour) (device : Device) : State :=
  let s1 := (List.range device.duration).foldl
    (fun s i => commitHour device s (wrapHour (startHour.hour + i))) s
  { s1 with hoursTable := List.insertionSort hourLe s1.hoursTable }

/-- The body of the device loop in `createSchedule`: the three feasibility
checks with their diagnostics (`!array.length` rendered as
`length = 0`), then `shift()` of the first sorted candidate (`headI`)
and the commit of that cheapest run. -/
def processDevice (s : State) (device : Device) : State :=
  let availableHours := getPotentialHours s.hoursTable device
  if availableHours.length = 0 then
    { s with errors := s.errors ++ ["No more space available for " ++ device.name] }
  else if availableHours.length < device.duration then
    { s with errors := s.errors ++ ["Not enough available hours for " ++ device.name] }
  else
    let availableContinuousHours :=
      getReallyAvailableHours s.hoursTable availableHours device
    if availableContinuousHours.length = 0 then
      { s with errors := s.errors ++
          ["Not enough available continuous hours for " ++ device.name] }
    else
      scheduleDevice s availableContinuousHours.headI device

/-- `createSchedule()`: process every ranked device in order. -/
def createSchedule (s : State) (devicesTable : List Device) : State :=
  devicesTable.foldl processDevice s

/-- The input structure `{devices, rates, maxPower}` given to the
constructor. -/
structure Input where
  devices : List Device
  rates : List Rate
  maxPower : ℚ
deriving DecidableEq

/-- The state right after `createHoursTable()` ran in the constructor,
before any device is processed. -/
def initState (input : Input) : State :=
  { hoursTable := createHoursTable input.maxPower input.rates
    totalMoneySpent := 0
    deviceMoneySpent := []
    errors := [] }

/-- The full constructor pipeline: build the tables and run the placement
loop over the ranked devices. -/
def runSchedule (input : Input) : State :=
  createSchedule (initState input) (createDevicesTable input.devices)

/-- Idealized `+x.toFixed(k)`: round to `k` decimal places (the source
formats a binary double; the claims under study are about the values
before rounding). -/
def roundTo (k : ℕ) (q : ℚ) : ℚ := (round (q * 10 ^ k) : ℤ) / 10 ^ k

/-- The output structure assembled by `getSchedule()`. -/
structure Output where
  schedule : List (ℕ × List String)
  consumedEnergyValue : ℚ
  consumedEnergyDevices : List (String × ℚ)
  devices : List (String × String)
deriving DecidableEq

/-- `getSchedule()`: read the final table into the output structure. -/
def getSchedule (input : Input) (s : State) : Output :=
  { schedule := s.hoursTable.map (fun hour => (hour.hour, hour.workers_id))
    consumedEnergyValue := roundTo 3 s.totalMoneySpent
    consumedEnergyDevices := s.deviceMoneySpent.map (fun p => (p.1, roundTo 4 p.2))
    devices := input.devices.map (fun device => (device.id, device.name)) }

/-! ### Specification-side definitions

The following definitions transcribe the wording of the specification
(the contiguous run of a device, its feasibility and its cost) so that
the behaviour of the code can be compared against them. -/

/-- The hours of a contiguous run of `duration` hours starting at
`start`, indices wrapping modulo 24. -/
def runHours (start duration : ℕ) : List ℕ :=
  (List.range duration).map (fun i => (start + i) % 24)

/-- The run starting at `start` is feasible for the device: every hour of
the run matches the device mode restriction (when one is specified) and
has remaining capacity at least the device power. -/
def FeasibleRun (table : List HourItem) (device : Device) (start : ℕ) : Prop :=
  ∀ h ∈ runHours start device.duration,
    (∀ m, device.mode = some m → (getHourItem table h).mode = m) ∧
    device.power ≤ (getHourItem table h).power

/-- The total cost of the run starting at `start`:
`Sum(price[hour] * power / 1000)` over the run. -/
def runCost (table : List HourItem) (device : Device) (start : ℕ) : ℚ :=
  ((runHours start device.duration).map
    (fun h => (getHourItem table h).price * device.power / 1000)).sum

/-- The hours table is well formed: its rows carry exactly the hour
indices 0 to 23, one each. -/
def WF (table : List HourItem) : Prop :=
  List.Perm (table.map (fun it => it.hour)) (List.range 24)

/-- Every row has remaining capacity between 0 and the system maximum. -/
def CapOK (maxPower : ℚ) (table : List HourItem) : Prop :=
  ∀ it ∈ table, 0 ≤ it.power ∧ it.power ≤ maxPower

/-- Every row carries the mode that `getModeForHour` assigns to its hour
(true at construction and preserved: commits never change the field). -/
def ModesOK (table : List HourItem) : Prop :=
  ∀ it ∈ table, it.mode = getModeForHour it.hour

instance (t : List HourItem) : Decidable (WF t) :=
  inferInstanceAs (Decidable (List.Perm (t.map (fun it : HourItem => it.hour)) (List.range 24)))

instance (t : List HourItem) : Decidable (ModesOK t) :=
  inferInstanceAs (Decidable (∀ it ∈ t, it.mode = getModeForHour it.hour))

/-! ### Derived definitions used by the verification, and concrete
fixture inputs for witnesses and counterexamples -/

/-- The mutation a commit applies to the row of one target hour. -/
def modItem (device : Device) (it : HourItem) : HourItem :=
  { it with power := it.power - device.power
            workers := it.workers ++ [device.name]
            workers_id := it.workers_id ++ [device.id] }

/-- A commit fold over an explicit list of (already wrapped) target
hours; `scheduleDevice` is this fold over the wrapped run hours. -/
def commitFold (device : Device) (s : State) (targets : List ℕ) : State :=
  targets.foldl (commitHour device) s

/-- The keys of the per-device cost map (JS object keys are unique). -/
def keysNodup (spent : List (String × ℚ)) : Prop :=
  (spent.map Prod.fst).Nodup

/-- The cost-accounting invariant: unique keys and the total equal to the
sum of the per-device values. -/
def MoneyInv (s : State) : Prop :=
  keysNodup s.deviceMoneySpent ∧
    s.totalMoneySpent = (s.deviceMoneySpent.map Prod.snd).sum

/-- The identifier `x` occurs somewhere in the mutable bookkeeping: in an
occupant list of some hour row, or as a key of the per-device cost map. -/
def idUsed (s : State) (x : String) : Prop :=
  (∃ it ∈ s.hoursTable, x ∈ it.workers_id) ∨ (∃ q, (x, q) ∈ s.deviceMoneySpent)

/-- A small concrete fixture: one unrestricted 50-power 2-hour device, no
tariff intervals, maximum power 100. -/
def wDevice : Device := ⟨"w1", "Washer", 50, 2, none⟩

/-- Fixture input for the witnesses. -/
def wInput : Input := ⟨[wDevice], [], 100⟩

/-- The start hour the engine picks for `wDevice` on `wInput`. -/
def wStart : CalcHour := ⟨⟨0, 100, "night", [], [], 999⟩, (999 : ℚ)/10⟩

/-- Counterexample input: the first ranked device (power 2000 against
maxPower 100) is rejected, so no commit re-sorts the price-ordered
registry before the second device is processed. -/
def cexInput5 : Input :=
  ⟨[⟨"a", "A", 2000, 1, none⟩, ⟨"b", "B", 1, 1, none⟩], [⟨12, 0, 1⟩], 100⟩

/-- Two distinct devices with the same footprint 200. -/
def cexDev1 : Device := ⟨"a", "A", 100, 2, none⟩

/-- Second fixture device for the tie-break counterexample. -/
def cexDev2 : Device := ⟨"b", "B", 200, 1, none⟩

/-- A tariff interval with a value above the sentinel. -/
def cexRate4 : Rate := ⟨0, 1, 1000⟩

/-- Fixture input for the diagnostics witness: a single device whose
power exceeds the system maximum, so its placement fails at the first
check. -/
def cexInput6 : Input := ⟨[⟨"c", "Collider", 10000, 1, none⟩], [], 100⟩

/-! ### Order instances for the sort relations -/

instance : IsTotal CalcHour contLe :=
  ⟨fun a b => by
    unfold contLe
    rcases lt_trichotomy a.totalPrice b.totalPrice with h | h | h
    · exact Or.inl (Or.inl h)
    · rcases le_total a.hour b.hour with h2 | h2
      · exact Or.inl (Or.inr ⟨h, h2⟩)
      · exact Or.inr (Or.inr ⟨h.symm, h2⟩)
    · exact Or.inr (Or.inl h)⟩

instance : IsTrans CalcHour contLe :=
  ⟨fun a b c hab hbc => by
    unfold contLe at *
    rcases hab with h1 | ⟨e1, g1⟩ <;> rcases hbc with h2 | ⟨e2, g2⟩
    · exact Or.inl (h1.trans h2)
    · exact Or.inl (lt_of_lt_of_le h1 (le_of_eq e2))
    · exact Or.inl (lt_of_le_of_lt (le_of_eq e1) h2)
    · exact Or.inr ⟨e1.trans e2, g1.trans g2⟩⟩

instance : IsTotal HourItem hourLe := ⟨fun a b => Nat.le_total a.hour b.hour⟩

instance : IsTrans HourItem hourLe := ⟨fun _ _ _ hab hbc => Nat.le_trans hab hbc⟩

instance : IsTotal Device devLe :=
  ⟨fun a b => le_total (a.power * a.duration) (b.power * b.duration)⟩

instance : IsTrans Device devLe := ⟨fun _ _ _ hab hbc => le_trans hab hbc⟩

/-! ### Table lookup lemmas -/

theorem find?_hour_eq {t : List HourItem} (hnd : (t.map (fun it => it.hour)).Nodup)
    {it : HourItem} (hmem : it ∈ t) {h : ℕ} (hh : it.hour = h) :
    t.find? (fun x => x.hour == h) = some it := by
  induction t with
  | nil => simp at hmem
  | cons a t ih =>
    simp only [List.map_cons, List.nodup_cons] at hnd
    rcases List.mem_cons.mp hmem with rfl | hmem'
    · rw [List.find?_cons_of_pos]
      exact beq_iff_eq.mpr hh
    · have ha : ¬ a.hour = h := by
        intro he
        exact hnd.1 (by rw [he, ← hh]; exact List.mem_map_of_mem _ hmem')
      rw [List.find?_cons_of_neg]
      · exact ih hnd.2 hmem'
      · simpa using ha

theorem getHourItem_of_mem {t : List HourItem}
    (hnd : (t.map (fun it => it.hour)).Nodup)
    {it : HourItem} (hmem : it ∈ t) {h : ℕ} (hh : it.hour = h) :
    getHourItem t h = it := by
  unfold getHourItem
  rw [find?_hour_eq hnd hmem hh]

theorem WF.nodup_hours {t : List HourItem} (h : WF t) :
    (t.map (fun it => it.hour)).Nodup :=
  h.nodup_iff.mpr (List.nodup_range 24)

theorem WF.hour_lt {t : List HourItem} (hWF : WF t) {it : HourItem}
    (hmem : it ∈ t) : it.hour < 24 := by
  have : it.hour ∈ List.range 24 := hWF.mem_iff.mp (List.mem_map_of_mem _ hmem)
  simpa using this

theorem WF.exists_row {t : List HourItem} (hWF : WF t) {h : ℕ} (hh : h < 24) :
    ∃ it ∈ t, it.hour = h := by
  have : h ∈ t.map (fun it => it.hour) := hWF.mem_iff.mpr (List.mem_range.mpr hh)
  rcases List.mem_map.mp this with ⟨it, hmem, he⟩
  exact ⟨it, hmem, he⟩

theorem getHourItem_mem {t : List HourItem} (hWF : WF t) {h : ℕ} (hh : h < 24) :
    getHourItem t h ∈ t ∧ (getHourItem t h).hour = h := by
  rcases hWF.exists_row hh with ⟨it, hm, he⟩
  rw [getHourItem_of_mem hWF.nodup_hours hm he]
  exact ⟨hm, he⟩

theorem WF.perm {t t' : List HourItem} (hWF : WF t) (hp : List.Perm t t') : WF t' :=
  ((hp.map _).symm).trans hWF

theorem getHourItem_perm {t t' : List HourItem} (hWF : WF t) (hp : List.Perm t t')
    {h : ℕ} (hh : h < 24) : getHourItem t h = getHourItem t' h := by
  rcases getHourItem_mem hWF hh with ⟨hm, he⟩
  exact (getHourItem_of_mem (hWF.perm hp).nodup_hours (hp.mem_iff.mp hm) he).symm

theorem mem_iff_getHourItem {t : List HourItem} (hWF : WF t) {it : HourItem} :
    it ∈ t ↔ ∃ h, h < 24 ∧ getHourItem t h = it := by
  constructor
  · intro hm
    exact ⟨it.hour, hWF.hour_lt hm, getHourItem_of_mem hWF.nodup_hours hm rfl⟩
  · rintro ⟨h, hh, rfl⟩
    exact (getHourItem_mem hWF hh).1

theorem updateHourItem_map_hour (t : List HourItem) (h : ℕ) (f : HourItem → HourItem)
    (hf : ∀ it, (f it).hour = it.hour) :
    (updateHourItem t h f).map (fun it => it.hour) = t.map (fun it => it.hour) := by
  unfold updateHourItem
  rw [List.map_map]
  apply List.map_congr_left
  intro a _
  by_cases hc : a.hour = h <;> simp [hc, hf]

theorem WF.update {t : List HourItem} (hWF : WF t) (h : ℕ) (f : HourItem → HourItem)
    (hf : ∀ it, (f it).hour = it.hour) : WF (updateHourItem t h f) := by
  unfold WF
  rw [updateHourItem_map_hour t h f hf]
  exact hWF

theorem getHourItem_update {t : List HourItem} (hWF : WF t) (h : ℕ)
    (f : HourItem → HourItem) (hf : ∀ it, (f it).hour = it.hour)
    {h' : ℕ} (hh' : h' < 24) :
    getHourItem (updateHourItem t h f) h' =
      if h' = h then f (getHourItem t h') else getHourItem t h' := by
  rcases getHourItem_mem hWF hh' with ⟨hm, he⟩
  have hg : (if (getHourItem t h').hour = h then f (getHourItem t h')
      else getHourItem t h') ∈ updateHourItem t h f := by
    unfold updateHourItem
    exact List.mem_map_of_mem _ hm
  have hhour : (if (getHourItem t h').hour = h then f (getHourItem t h')
      else getHourItem t h').hour = h' := by
    by_cases hc : (getHourItem t h').hour = h
    · rw [if_pos hc, hf, he]
    · rw [if_neg hc, he]
  rw [getHourItem_of_mem ((hWF.update h f hf)).nodup_hours hg hhour]
  by_cases hc : h' = h
  · have hcond : (getHourItem t h').hour = h := by rw [he, hc]
    rw [if_pos hcond, if_pos hc]
  · have hcond : ¬ (getHourItem t h').hour = h := by rw [he]; exact hc
    rw [if_neg hcond, if_neg hc]

/-! ### Cost accumulator lemmas -/

theorem addSpent_keysNodup {spent : List (String × ℚ)} (hnd : keysNodup spent)
    (key : String) (amount : ℚ) : keysNodup (addSpent spent key amount) := by
  unfold addSpent
  by_cases hmem : spent.any (fun p => p.1 == key)
  · rw [if_pos hmem]
    unfold keysNodup
    have hmk : (spent.map (fun p => if p.1 == key then (p.1, p.2 + amount) else p)).map Prod.fst
        = spent.map Prod.fst := by
      rw [List.map_map]
      apply List.map_congr_left
      intro p _
      by_cases hc : p.1 == key
      · rw [Function.comp_apply, if_pos hc]
      · rw [Function.comp_apply, if_neg hc]
    rw [hmk]
    exact hnd
  · rw [if_neg hmem]
    unfold keysNodup
    rw [List.map_append]
    apply List.Nodup.append hnd (by simp)
    intro x hx hx2
    simp only [List.map_cons, List.map_nil, List.mem_singleton] at hx2
    subst hx2
    rcases List.mem_map.mp hx with ⟨p, hp, he⟩
    exact hmem (List.any_eq_true.mpr ⟨p, hp, beq_iff_eq.mpr he⟩)

theorem addSpent_sum {spent : List (String × ℚ)} (hnd : keysNodup spent)
    (key : String) (amount : ℚ) :
    ((addSpent spent key amount).map Prod.snd).sum = (spent.map Prod.snd).sum + amount := by
  unfold addSpent
  by_cases hmem : spent.any (fun p => p.1 == key)
  · rw [if_pos hmem]
    induction spent with
    | nil => simp at hmem
    | cons p t ih =>
      unfold keysNodup at hnd
      simp only [List.map_cons, List.nodup_cons] at hnd
      by_cases hc : p.1 == key
      · have ht : List.map (fun p => if p.1 == key then (p.1, p.2 + amount) else p) t
            = List.map (fun q => q) t := by
          apply List.map_congr_left
          intro q hq
          have hqne : ¬ q.1 == key := by
            intro hqid
            exact hnd.1 (by
              rw [show p.1 = q.1 from (beq_iff_eq.mp hc).trans (beq_iff_eq.mp hqid).symm]
              exact List.mem_map_of_mem _ hq)
          rw [if_neg hqne]
        simp only [List.map_cons, if_pos hc, ht, List.map_id', List.sum_cons]
        ring
      · have hmem2 : t.any (fun p => p.1 == key) := by
          rcases List.any_eq_true.mp hmem with ⟨q, hq, hqid⟩
          rcases List.mem_cons.mp hq with rfl | hq2
          · exact absurd hqid hc
          · exact List.any_eq_true.mpr ⟨q, hq2, hqid⟩
        simp only [List.map_cons, if_neg hc, List.sum_cons]
        rw [ih hnd.2 hmem2]
        ring
  · rw [if_neg hmem]
    simp

theorem addSpent_mem {spent : List (String × ℚ)} {key : String} {amount : ℚ}
    {x : String × ℚ} (hx : x ∈ addSpent spent key amount) :
    x.1 ∈ spent.map Prod.fst ∨ x.1 = key := by
  unfold addSpent at hx
  by_cases hmem : spent.any (fun p => p.1 == key)
  · rw [if_pos hmem] at hx
    rcases List.mem_map.mp hx with ⟨p, hp, he⟩
    have hx1 : x.1 = p.1 := by
      by_cases hc : p.1 == key
      · rw [if_pos hc] at he
        rw [← he]
      · rw [if_neg hc] at he
        rw [← he]
    left
    rw [hx1]
    exact List.mem_map_of_mem _ hp
  · rw [if_neg hmem] at hx
    rcases List.mem_append.mp hx with hx2 | hx2
    · exact Or.inl (List.mem_map_of_mem _ hx2)
    · right
      rw [List.mem_singleton] at hx2
      rw [hx2]

/-! ### Commit lemmas -/

theorem modItem_hour (device : Device) (it : HourItem) :
    (modItem device it).hour = it.hour := rfl

theorem commitHour_hoursTable (device : Device) (s : State) (target : ℕ) :
    (commitHour device s target).hoursTable =
      updateHourItem s.hoursTable target (modItem device) := rfl

theorem commitHour_errors (device : Device) (s : State) (target : ℕ) :
    (commitHour device s target).errors = s.errors := rfl

theorem commitHour_WF {device : Device} {s : State} (hWF : WF s.hoursTable)
    (target : ℕ) : WF (commitHour device s target).hoursTable :=
  hWF.update target (modItem device) (modItem_hour device)

theorem commitHour_get {device : Device} {s : State} (hWF : WF s.hoursTable)
    (target : ℕ) {h : ℕ} (hh : h < 24) :
    getHourItem (commitHour device s target).hoursTable h =
      if h = target then modItem device (getHourItem s.hoursTable h)
      else getHourItem s.hoursTable h :=
  getHourItem_update hWF target (modItem device) (modItem_hour device) hh

theorem scheduleDevice_eq_commitFold (s : State) (startHour : CalcHour) (device : Device) :
    scheduleDevice s startHour device =
      { commitFold device s
          ((List.range device.duration).map (fun i => wrapHour (startHour.hour + i))) with
        hoursTable := List.insertionSort hourLe
          (commitFold device s
            ((List.range device.duration).map (fun i => wrapHour (startHour.hour + i)))).hoursTable } := by
  unfold scheduleDevice commitFold
  rw [List.foldl_map]

theorem commitFold_WF {device : Device} {s : State} (hWF : WF s.hoursTable)
    (targets : List ℕ) : WF (commitFold device s targets).hoursTable := by
  induction targets generalizing s with
  | nil => exact hWF
  | cons t ts ih => exact ih (commitHour_WF hWF t)

theorem commitFold_errors (device : Device) (s : State) (targets : List ℕ) :
    (commitFold device s targets).errors = s.errors := by
  induction targets generalizing s with
  | nil => rfl
  | cons t ts ih => exact ih (commitHour device s t)

theorem commitFold_get {device : Device} {s : State} (hWF : WF s.hoursTable)
    {targets : List ℕ} (hnd : targets.Nodup) {h : ℕ} (hh : h < 24) :
    getHourItem (commitFold device s targets).hoursTable h =
      if h ∈ targets then modItem device (getHourItem s.hoursTable h)
      else getHourItem s.hoursTable h := by
  induction targets generalizing s with
  | nil => simp [commitFold]
  | cons t ts ih =>
    simp only [List.nodup_cons] at hnd
    have hstep : commitFold device s (t :: ts) = commitFold device (commitHour device s t) ts := rfl
    rw [hstep, ih (commitHour_WF hWF t) hnd.2]
    by_cases hmem : h ∈ ts
    · have hht : h ≠ t := fun he => hnd.1 (he ▸ hmem)
      rw [if_pos hmem, if_pos (List.mem_cons_of_mem t hmem),
        commitHour_get hWF t hh, if_neg hht]
    · rw [if_neg hmem, commitHour_get hWF t hh]
      by_cases hht : h = t
      · rw [if_pos hht, if_pos (hht ▸ List.mem_cons_self t ts)]
      · rw [if_neg hht, if_neg (by simp [hht, hmem])]

theorem commitHour_moneyInv {s : State} (hM : MoneyInv s) (device : Device)
    (target : ℕ) : MoneyInv (commitHour device s target) := by
  rcases hM with ⟨hnd, hsum⟩
  constructor
  · exact addSpent_keysNodup hnd _ _
  · show s.totalMoneySpent + _ =
      ((addSpent s.deviceMoneySpent device.id _).map Prod.snd).sum
    rw [addSpent_sum hnd, hsum]

theorem commitFold_moneyInv {s : State} (hM : MoneyInv s) (device : Device)
    (targets : List ℕ) : MoneyInv (commitFold device s targets) := by
  induction targets generalizing s with
  | nil => exact hM
  | cons t ts ih => exact ih (commitHour_moneyInv hM device t)

theorem scheduleDevice_moneyInv {s : State} (hM : MoneyInv s)
    (startHour : CalcHour) (device : Device) :
    MoneyInv (scheduleDevice s startHour device) := by
  rw [scheduleDevice_eq_commitFold]
  exact commitFold_moneyInv hM device _

theorem scheduleDevice_errors (s : State) (startHour : CalcHour) (device : Device) :
    (scheduleDevice s startHour device).errors = s.errors := by
  rw [scheduleDevice_eq_commitFold]
  exact commitFold_errors device s _

/-! ### Run-hour arithmetic -/

theorem wrapHour_eq_mod {h : ℕ} (hh : h < 48) : wrapHour h = h % 24 := by
  unfold wrapHour
  by_cases hc : 24 ≤ h
  · rw [if_pos hc]
    omega
  · rw [if_neg hc]
    omega

theorem runHours_lt (start duration : ℕ) : ∀ h ∈ runHours start duration, h < 24 := by
  intro h hm
  rcases List.mem_map.mp hm with ⟨i, _, rfl⟩
  exact Nat.mod_lt _ (by norm_num)

theorem runHours_nodup {start duration : ℕ} (hd : duration ≤ 24) :
    (runHours start duration).Nodup := by
  unfold runHours
  apply List.Nodup.map_on _ (List.nodup_range duration)
  intro i hi j hj he
  simp only [List.mem_range] at hi hj
  omega

theorem runHours_cons {start duration : ℕ} (hd : 1 ≤ duration) (hs : start < 24) :
    runHours start duration =
      start :: (List.range (duration - 1)).map (fun i => (start + 1 + i) % 24) := by
  unfold runHours
  obtain ⟨n, rfl⟩ : ∃ n, duration = n + 1 := ⟨duration - 1, by omega⟩
  rw [List.range_succ_eq_map]
  simp only [List.map_cons, List.map_map, Nat.add_zero, Nat.succ_sub_one]
  congr 1
  · exact Nat.mod_eq_of_lt hs
  · apply List.map_congr_left
    intro i _
    show (start + (i + 1)) % 24 = (start + 1 + i) % 24
    congr 1
    omega

theorem targets_eq_runHours {start duration : ℕ} (hs : start < 24) (hd : duration ≤ 24) :
    (List.range duration).map (fun i => wrapHour (start + i)) = runHours start duration := by
  unfold runHours
  apply List.map_congr_left
  intro i hi
  simp only [List.mem_range] at hi
  exact wrapHour_eq_mod (by omega)

/-! ### Candidate-hour lemmas -/

theorem mem_getPotentialHours {table : List HourItem} {device : Device} {x : HourItem} :
    x ∈ getPotentialHours table device ↔
      x ∈ table ∧ (∀ m, device.mode = some m → x.mode = m) ∧ device.power ≤ x.power := by
  cases hm : device.mode with
  | none =>
    simp only [getPotentialHours, hm, List.mem_insertionSort, List.mem_filter,
      decide_eq_true_eq]
    constructor
    · rintro ⟨h1, h2⟩
      exact ⟨h1, fun m2 hmm => by exact Option.noConfusion hmm, h2⟩
    · rintro ⟨h1, _, h3⟩
      exact ⟨h1, h3⟩
  | some m =>
    simp only [getPotentialHours, hm, List.mem_insertionSort, List.mem_filter,
      decide_eq_true_eq, beq_iff_eq]
    constructor
    · rintro ⟨⟨h1, h2⟩, h3⟩
      refine ⟨h1, fun m2 hmm => ?_, h3⟩
      injection hmm with he
      rw [← he]
      exact h2
    · rintro ⟨h1, h2, h3⟩
      exact ⟨⟨h1, h2 m rfl⟩, h3⟩

theorem getPotentialHours_hours_nodup {table : List HourItem} (hWF : WF table)
    (device : Device) :
    ((getPotentialHours table device).map (fun it => it.hour)).Nodup := by
  have hsub : ∃ l, l.Sublist table ∧ List.Perm (getPotentialHours table device) l := by
    cases hm : device.mode with
    | none =>
      exact ⟨_, List.filter_sublist _,
        by simpa only [getPotentialHours, hm] using List.perm_insertionSort potLe _⟩
    | some m =>
      exact ⟨_, (List.filter_sublist _).trans (List.filter_sublist _),
        by simpa only [getPotentialHours, hm] using List.perm_insertionSort potLe _⟩
  rcases hsub with ⟨l, hsl, hperm⟩
  have hl : (l.map (fun it => it.hour)).Nodup :=
    List.Nodup.sublist (hsl.map _) hWF.nodup_hours
  exact ((hperm.map _)).nodup_iff.mpr hl

theorem getPotentialHours_length_le {table : List HourItem} (hWF : WF table)
    (device : Device) : (getPotentialHours table device).length ≤ 24 := by
  have hnd := getPotentialHours_hours_nodup hWF device
  have hsubset : (getPotentialHours table device).map (fun it => it.hour) ⊆ List.range 24 := by
    intro h hm
    rcases List.mem_map.mp hm with ⟨it, hit, rfl⟩
    exact List.mem_range.mpr (hWF.hour_lt (mem_getPotentialHours.mp hit).1)
  have hle := (hnd.subperm hsubset).length_le
  simpa using hle

theorem mem_getReallyAvailableHours {table : List HourItem}
    {availableHours : List HourItem} {device : Device} {y : CalcHour} :
    y ∈ getReallyAvailableHours table availableHours device ↔
      ∃ x ∈ availableHours, feasTail table device x.hour = true ∧
        y = { toHourItem := x, totalPrice := runTotalPrice table device x } := by
  unfold getReallyAvailableHours
  rw [List.mem_insertionSort, List.mem_filterMap]
  constructor
  · rintro ⟨x, hx, he⟩
    by_cases hf : feasTail table device x.hour
    · rw [if_pos hf] at he
      exact ⟨x, hx, hf, (Option.some_inj.mp he).symm⟩
    · rw [if_neg hf] at he
      exact Option.noConfusion he
  · rintro ⟨x, hx, hf, rfl⟩
    exact ⟨x, hx, by rw [if_pos hf]⟩

theorem sorted_getReallyAvailableHours (table : List HourItem)
    (availableHours : List HourItem) (device : Device) :
    List.Sorted contLe (getReallyAvailableHours table availableHours device) :=
  List.sorted_insertionSort contLe _

theorem head_contLe {y : CalcHour} {rest : List CalcHour}
    (hs : List.Sorted contLe (y :: rest)) :
    ∀ z ∈ y :: rest, contLe y z := by
  intro z hz
  rcases List.mem_cons.mp hz with rfl | hz2
  · exact Or.inr ⟨rfl, le_refl _⟩
  · exact List.rel_of_sorted_cons hs z hz2

/-! ### Feasibility and cost equivalences -/

theorem modesOK_get {table : List HourItem} (hWF : WF table) (hModes : ModesOK table)
    {h : ℕ} (hh : h < 24) : (getHourItem table h).mode = getModeForHour h := by
  rcases getHourItem_mem hWF hh with ⟨hm, he⟩
  rw [hModes _ hm, he]

theorem feasTail_step {table : List HourItem} {device : Device} {start : ℕ}
    (hf : feasTail table device start = true) {i : ℕ} (hi : i < device.duration - 1) :
    (∀ m, device.mode = some m → getModeForHour (wrapHour (start + 1 + i)) = m) ∧
      device.power ≤ (getHourItem table (wrapHour (start + 1 + i))).power := by
  unfold feasTail at hf
  rw [List.all_eq_true] at hf
  have hstep := hf i (List.mem_range.mpr hi)
  rw [Bool.and_eq_true] at hstep
  constructor
  · intro m hm
    rw [hm] at hstep
    exact beq_iff_eq.mp hstep.1
  · exact of_decide_eq_true hstep.2

theorem feasTail_of_checks {table : List HourItem} {device : Device} {start : ℕ}
    (hchk : ∀ i, i < device.duration - 1 →
      (∀ m, device.mode = some m → getModeForHour (wrapHour (start + 1 + i)) = m) ∧
        device.power ≤ (getHourItem table (wrapHour (start + 1 + i))).power) :
    feasTail table device start = true := by
  unfold feasTail
  rw [List.all_eq_true]
  intro i hi
  rw [List.mem_range] at hi
  rw [Bool.and_eq_true]
  rcases hchk i hi with ⟨h1, h2⟩
  constructor
  · cases hm : device.mode with
    | none => rfl
    | some m => exact beq_iff_eq.mpr (h1 m hm)
  · exact decide_eq_true h2

theorem feasibleRun_iff {table : List HourItem} (hWF : WF table) (hModes : ModesOK table)
    {device : Device} {start : ℕ} (hs : start < 24) (hdur : 1 ≤ device.duration)
    (hd24 : device.duration ≤ 24) :
    FeasibleRun table device start ↔
      ((∀ m, device.mode = some m → (getHourItem table start).mode = m) ∧
        device.power ≤ (getHourItem table start).power ∧
        feasTail table device start = true) := by
  constructor
  · intro hF
    have hstart := hF start (by
      rw [runHours_cons hdur hs]
      exact List.mem_cons_self _ _)
    refine ⟨hstart.1, hstart.2, feasTail_of_checks ?_⟩
    intro i hi
    have hw : wrapHour (start + 1 + i) = (start + 1 + i) % 24 :=
      wrapHour_eq_mod (by omega)
    have hmemrun : (start + 1 + i) % 24 ∈ runHours start device.duration := by
      rw [runHours_cons hdur hs]
      exact List.mem_cons_of_mem _ (List.mem_map_of_mem _ (List.mem_range.mpr hi))
    have hP := hF _ hmemrun
    have hlt : (start + 1 + i) % 24 < 24 := Nat.mod_lt _ (by norm_num)
    constructor
    · intro m hm
      rw [hw, ← modesOK_get hWF hModes hlt]
      exact hP.1 m hm
    · rw [hw]
      exact hP.2
  · rintro ⟨h1, h2, h3⟩
    intro h hm
    rw [runHours_cons hdur hs] at hm
    rcases List.mem_cons.mp hm with rfl | hm2
    · exact ⟨h1, h2⟩
    · rcases List.mem_map.mp hm2 with ⟨i, hi, rfl⟩
      rw [List.mem_range] at hi
      have hw : wrapHour (start + 1 + i) = (start + 1 + i) % 24 :=
        wrapHour_eq_mod (by omega)
      have hlt : (start + 1 + i) % 24 < 24 := Nat.mod_lt _ (by norm_num)
      rcases feasTail_step h3 hi with ⟨hm1, hm2p⟩
      constructor
      · intro m hm
        rw [modesOK_get hWF hModes hlt, ← hw]
        exact hm1 m hm
      · rw [← hw]
        exact hm2p

theorem foldl_add_sum (f : ℕ → ℚ) (c : ℚ) (L : List ℕ) :
    L.foldl (fun acc i => acc + f i) c = c + (L.map f).sum := by
  induction L generalizing c with
  | nil => simp
  | cons a l ih =>
    simp only [List.foldl_cons, List.map_cons, List.sum_cons, ih]
    ring

theorem runTotalPrice_eq_runCost {table : List HourItem} (hWF : WF table)
    {device : Device} {firstHour : HourItem}
    (hmem : firstHour ∈ table) (hdur : 1 ≤ device.duration)
    (hd24 : device.duration ≤ 24) :
    runTotalPrice table device firstHour = runCost table device firstHour.hour := by
  have hs : firstHour.hour < 24 := hWF.hour_lt hmem
  unfold runTotalPrice runCost
  rw [foldl_add_sum, runHours_cons hdur hs]
  simp only [List.map_cons, List.sum_cons, List.map_map]
  congr 1
  · rw [getHourItem_of_mem hWF.nodup_hours hmem rfl]
  · apply congrArg List.sum
    apply List.map_congr_left
    intro i hi
    rw [List.mem_range] at hi
    show (getHourItem table (wrapHour (firstHour.hour + 1 + i))).price * device.power / 1000
      = (getHourItem table ((firstHour.hour + 1 + i) % 24)).price * device.power / 1000
    rw [wrapHour_eq_mod (by omega)]

/-! ### processDevice lemmas -/

theorem head?_mem {α : Type} {l : List α} {a : α} (h : l.head? = some a) : a ∈ l := by
  cases l with
  | nil => exact Option.noConfusion h
  | cons b t =>
    rw [List.head?_cons] at h
    rw [← Option.some_inj.mp h]
    exact List.mem_cons_self b t

theorem head?_eq_cons {α : Type} {l : List α} {a : α} (h : l.head? = some a) :
    l = a :: l.tail := by
  cases l with
  | nil => exact Option.noConfusion h
  | cons b t =>
    rw [List.head?_cons] at h
    rw [Option.some_inj.mp h]
    rfl

/-- The body of `processDevice` with the local bindings inlined. -/
theorem processDevice_eq (s : State) (device : Device) :
    processDevice s device =
      if (getPotentialHours s.hoursTable device).length = 0 then
        { s with errors := s.errors ++ ["No more space available for " ++ device.name] }
      else if (getPotentialHours s.hoursTable device).length < device.duration then
        { s with errors := s.errors ++ ["Not enough available hours for " ++ device.name] }
      else if (getReallyAvailableHours s.hoursTable
          (getPotentialHours s.hoursTable device) device).length = 0 then
        { s with errors := s.errors ++
            ["Not enough available continuous hours for " ++ device.name] }
      else
        scheduleDevice s (getReallyAvailableHours s.hoursTable
          (getPotentialHours s.hoursTable device) device).headI device := rfl

theorem head?_headI {α : Type} [Inhabited α] {l : List α} (h : ¬ l.length = 0) :
    l.head? = some l.headI := by
  cases l with
  | nil => simp at h
  | cons a t => rfl

/-- Everything the membership of the chosen start hour in the sorted
continuous-hours list yields. -/
theorem contHead_facts {s : State} {d : Device} {start : CalcHour}
    (hWF : WF s.hoursTable)
    (hlen : ¬ (getPotentialHours s.hoursTable d).length < d.duration)
    (hstart : (getReallyAvailableHours s.hoursTable
      (getPotentialHours s.hoursTable d) d).head? = some start) :
    start.toHourItem ∈ s.hoursTable ∧
    start.hour < 24 ∧
    d.duration ≤ 24 ∧
    getHourItem s.hoursTable start.hour = start.toHourItem ∧
    (∀ m, d.mode = some m → start.toHourItem.mode = m) ∧
    d.power ≤ start.toHourItem.power ∧
    feasTail s.hoursTable d start.hour = true ∧
    start.totalPrice = runTotalPrice s.hoursTable d start.toHourItem := by
  have hd24 : d.duration ≤ 24 :=
    le_trans (Nat.not_lt.mp hlen) (getPotentialHours_length_le hWF d)
  have hmem := head?_mem hstart
  rcases mem_getReallyAvailableHours.mp hmem with ⟨x, hx, hft, hxe⟩
  rcases mem_getPotentialHours.mp hx with ⟨hxt, hxm, hxp⟩
  subst hxe
  exact ⟨hxt, hWF.hour_lt hxt, hd24,
    getHourItem_of_mem hWF.nodup_hours hxt rfl, hxm, hxp, hft, rfl⟩

/-- Every hour of the committed run has enough remaining capacity for the
device at commit time. -/
theorem run_powers {s : State} {d : Device} {start : CalcHour}
    (hWF : WF s.hoursTable)
    (hlen : ¬ (getPotentialHours s.hoursTable d).length < d.duration)
    (hstart : (getReallyAvailableHours s.hoursTable
      (getPotentialHours s.hoursTable d) d).head? = some start) :
    ∀ h ∈ runHours start.hour d.duration,
      d.power ≤ (getHourItem s.hoursTable h).power := by
  obtain ⟨hmem, hs24, hd24, hget, hmode, hpow, hft, htp⟩ :=
    contHead_facts hWF hlen hstart
  intro h hm
  rcases List.mem_map.mp hm with ⟨i, hi, rfl⟩
  rw [List.mem_range] at hi
  cases i with
  | zero =>
    rw [Nat.add_zero, Nat.mod_eq_of_lt hs24, hget]
    exact hpow
  | succ j =>
    have hj : j < d.duration - 1 := by omega
    have hp := (feasTail_step hft hj).2
    rw [wrapHour_eq_mod (by omega)] at hp
    have he : start.hour + (j + 1) = start.hour + 1 + j := by omega
    rw [he]
    exact hp

theorem scheduleDevice_WF {s : State} (hWF : WF s.hoursTable)
    (startHour : CalcHour) (device : Device) :
    WF (scheduleDevice s startHour device).hoursTable := by
  rw [scheduleDevice_eq_commitFold]
  exact (commitFold_WF hWF _).perm (List.perm_insertionSort hourLe _).symm

theorem processDevice_WF {s : State} (hWF : WF s.hoursTable) (device : Device) :
    WF (processDevice s device).hoursTable := by
  rw [processDevice_eq]
  by_cases h0 : (getPotentialHours s.hoursTable device).length = 0
  · rw [if_pos h0]
    exact hWF
  · rw [if_neg h0]
    by_cases h1 : (getPotentialHours s.hoursTable device).length < device.duration
    · rw [if_pos h1]
      exact hWF
    · rw [if_neg h1]
      by_cases h2 : (getReallyAvailableHours s.hoursTable
          (getPotentialHours s.hoursTable device) device).length = 0
      · rw [if_pos h2]
        exact hWF
      · rw [if_neg h2]
        exact scheduleDevice_WF hWF _ device

theorem updateHourItem_modesOK {table : List HourItem} (hM : ModesOK table)
    (h : ℕ) (f : HourItem → HourItem) (hf : ∀ it, (f it).hour = it.hour)
    (hfm : ∀ it, (f it).mode = it.mode) : ModesOK (updateHourItem table h f) := by
  intro it hit
  rcases List.mem_map.mp hit with ⟨a, ha, he⟩
  by_cases hc : a.hour = h
  · rw [if_pos hc] at he
    rw [← he, hfm, hf]
    exact hM a ha
  · rw [if_neg hc] at he
    rw [← he]
    exact hM a ha

theorem modesOK_perm {t t' : List HourItem} (hM : ModesOK t) (hp : List.Perm t t') :
    ModesOK t' := fun it hit => hM it (hp.mem_iff.mpr hit)

theorem commitFold_modesOK {device : Device} {s : State} (hM : ModesOK s.hoursTable)
    (targets : List ℕ) : ModesOK (commitFold device s targets).hoursTable := by
  induction targets generalizing s with
  | nil => exact hM
  | cons t ts ih =>
    exact ih (updateHourItem_modesOK hM t (modItem device) (modItem_hour device)
      (fun it => rfl))

theorem scheduleDevice_modesOK {s : State} (hM : ModesOK s.hoursTable)
    (startHour : CalcHour) (device : Device) :
    ModesOK (scheduleDevice s startHour device).hoursTable := by
  rw [scheduleDevice_eq_commitFold]
  exact modesOK_perm (commitFold_modesOK hM _) (List.perm_insertionSort hourLe _).symm

theorem processDevice_modesOK {s : State} (hM : ModesOK s.hoursTable) (device : Device) :
    ModesOK (processDevice s device).hoursTable := by
  rw [processDevice_eq]
  by_cases h0 : (getPotentialHours s.hoursTable device).length = 0
  · rw [if_pos h0]
    exact hM
  · rw [if_neg h0]
    by_cases h1 : (getPotentialHours s.hoursTable device).length < device.duration
    · rw [if_pos h1]
      exact hM
    · rw [if_neg h1]
      by_cases h2 : (getReallyAvailableHours s.hoursTable
          (getPotentialHours s.hoursTable device) device).length = 0
      · rw [if_pos h2]
        exact hM
      · rw [if_neg h2]
        exact scheduleDevice_modesOK hM _ device

/-- Claim C1: for every device that passes the candidate-hour checks, the
committed placement is a contiguous run of exactly `duration` hours with
indices wrapping modulo 24, every hour of which matches the device mode
restriction (when one is specified) and has remaining capacity at least
the device power; among all starting hours that yield such a feasible
run, the chosen one minimizes the total cost of the run, with ties broken
by the earliest starting hour. -/
theorem placer_commits_cheapest_feasible_run
    (s : State) (d : Device) (start : CalcHour)
    (hWF : WF s.hoursTable)
    (hModes : ModesOK s.hoursTable)
    (hdur : 1 ≤ d.duration)
    (hlen : ¬ (getPotentialHours s.hoursTable d).length < d.duration)
    (hstart : (getReallyAvailableHours s.hoursTable
      (getPotentialHours s.hoursTable d) d).head? = some start) :
    FeasibleRun s.hoursTable d start.hour ∧
    (∀ h, h < 24 → FeasibleRun s.hoursTable d h →
      runCost s.hoursTable d start.hour ≤ runCost s.hoursTable d h ∧
      (runCost s.hoursTable d h = runCost s.hoursTable d start.hour → start.hour ≤ h)) ∧
    processDevice s d = scheduleDevice s start d ∧
    (∀ h, h < 24 →
      ((getHourItem (processDevice s d).hoursTable h).workers_id =
        (getHourItem s.hoursTable h).workers_id ++
          (if h ∈ runHours start.hour d.duration then [d.id] else [])) ∧
      (h ∈ runHours start.hour d.duration →
        (getHourItem (processDevice s d).hoursTable h).power =
          (getHourItem s.hoursTable h).power - d.power)) := by
  obtain ⟨hmem, hs24, hd24, hget, hmodecond, hpow, hft, htp⟩ :=
    contHead_facts hWF hlen hstart
  have hcont := head?_eq_cons hstart
  have hA : FeasibleRun s.hoursTable d start.hour := by
    apply (feasibleRun_iff hWF hModes hs24 hdur hd24).mpr
    refine ⟨?_, ?_, hft⟩
    · intro m hm
      rw [hget]
      exact hmodecond m hm
    · rw [hget]
      exact hpow
  have hstp : start.totalPrice = runCost s.hoursTable d start.hour := by
    rw [htp]
    exact runTotalPrice_eq_runCost hWF hmem hdur hd24
  have hmemcont : ∀ h, h < 24 → FeasibleRun s.hoursTable d h →
      ({ toHourItem := getHourItem s.hoursTable h,
         totalPrice := runTotalPrice s.hoursTable d (getHourItem s.hoursTable h) } : CalcHour)
        ∈ getReallyAvailableHours s.hoursTable (getPotentialHours s.hoursTable d) d := by
    intro h hh hF
    have hEq := (feasibleRun_iff hWF hModes hh hdur hd24).mp hF
    apply mem_getReallyAvailableHours.mpr
    refine ⟨getHourItem s.hoursTable h, ?_, ?_, rfl⟩
    · exact mem_getPotentialHours.mpr ⟨(getHourItem_mem hWF hh).1, hEq.1, hEq.2.1⟩
    · rw [(getHourItem_mem hWF hh).2]
      exact hEq.2.2
  have hB : ∀ h, h < 24 → FeasibleRun s.hoursTable d h →
      runCost s.hoursTable d start.hour ≤ runCost s.hoursTable d h ∧
      (runCost s.hoursTable d h = runCost s.hoursTable d start.hour → start.hour ≤ h) := by
    intro h hh hF
    obtain ⟨hyh1, hyh2⟩ := getHourItem_mem hWF hh
    have hy := hmemcont h hh hF
    have hsorted := sorted_getReallyAvailableHours s.hoursTable
      (getPotentialHours s.hoursTable d) d
    rw [hcont] at hsorted hy
    have hle : start.totalPrice
          < runTotalPrice s.hoursTable d (getHourItem s.hoursTable h) ∨
        (start.totalPrice = runTotalPrice s.hoursTable d (getHourItem s.hoursTable h) ∧
          start.hour ≤ (getHourItem s.hoursTable h).hour) :=
      head_contLe hsorted _ hy
    have hytp : runTotalPrice s.hoursTable d (getHourItem s.hoursTable h)
        = runCost s.hoursTable d h := by
      have h2 := runTotalPrice_eq_runCost hWF hyh1 hdur hd24
      rw [hyh2] at h2
      exact h2
    rw [hytp, hyh2, hstp] at hle
    rcases hle with hlt | ⟨heq, hhle⟩
    · refine ⟨le_of_lt hlt, fun heq2 => absurd hlt ?_⟩
      rw [heq2]
      exact lt_irrefl _
    · exact ⟨le_of_eq heq, fun _ => hhle⟩
  have hlen0 : ¬ (getPotentialHours s.hoursTable d).length = 0 := by
    intro h0
    exact hlen (by rw [h0]; exact hdur)
  have hlen2 : ¬ (getReallyAvailableHours s.hoursTable
      (getPotentialHours s.hoursTable d) d).length = 0 := by
    rw [hcont]
    simp
  have hPD : processDevice s d = scheduleDevice s start d := by
    rw [processDevice_eq, if_neg hlen0, if_neg hlen, if_neg hlen2, hcont]
    rfl
  refine ⟨hA, hB, hPD, ?_⟩
  intro h hh
  have htargets : (List.range d.duration).map (fun i => wrapHour (start.hour + i))
      = runHours start.hour d.duration := targets_eq_runHours hs24 hd24
  have hWFfold := @commitFold_WF d s hWF (runHours start.hour d.duration)
  have hfold : getHourItem (scheduleDevice s start d).hoursTable h =
      (if h ∈ runHours start.hour d.duration
        then modItem d (getHourItem s.hoursTable h)
        else getHourItem s.hoursTable h) := by
    rw [scheduleDevice_eq_commitFold, htargets]
    have hperm : List.Perm (commitFold d s (runHours start.hour d.duration)).hoursTable
        (List.insertionSort hourLe (commitFold d s (runHours start.hour d.duration)).hoursTable) :=
      (List.perm_insertionSort hourLe _).symm
    rw [show ({ commitFold d s (runHours start.hour d.duration) with
        hoursTable := List.insertionSort hourLe
          (commitFold d s (runHours start.hour d.duration)).hoursTable } : State).hoursTable
      = List.insertionSort hourLe
          (commitFold d s (runHours start.hour d.duration)).hoursTable from rfl]
    rw [← getHourItem_perm hWFfold hperm hh]
    exact commitFold_get hWF (runHours_nodup hd24) hh
  rw [hPD]
  constructor
  · rw [hfold]
    by_cases hmemh : h ∈ runHours start.hour d.duration
    · rw [if_pos hmemh, if_pos hmemh]
      rfl
    · rw [if_neg hmemh, if_neg hmemh, List.append_nil]
  · intro hmemh
    rw [hfold, if_pos hmemh]
    rfl

attribute [local semireducible] Rat.add Rat.mul Rat.inv Rat.sub in
theorem placer_commits_cheapest_feasible_run_witness :
    FeasibleRun (initState wInput).hoursTable wDevice 0 :=
  (placer_commits_cheapest_feasible_run (initState wInput) wDevice wStart
    (by decide) (by decide) (by decide) (by decide) (by decide)).1

/-! ### Initial-table and commit-effect lemmas -/

theorem scheduleDevice_get {s : State} (hWF : WF s.hoursTable) {start : CalcHour}
    {d : Device} (hs24 : start.hour < 24) (hd24 : d.duration ≤ 24) {h : ℕ} (hh : h < 24) :
    getHourItem (scheduleDevice s start d).hoursTable h =
      if h ∈ runHours start.hour d.duration
        then modItem d (getHourItem s.hoursTable h)
        else getHourItem s.hoursTable h := by
  have htargets : (List.range d.duration).map (fun i => wrapHour (start.hour + i))
      = runHours start.hour d.duration := targets_eq_runHours hs24 hd24
  have hWFfold := @commitFold_WF d s hWF (runHours start.hour d.duration)
  rw [scheduleDevice_eq_commitFold, htargets]
  have hperm : List.Perm (commitFold d s (runHours start.hour d.duration)).hoursTable
      (List.insertionSort hourLe (commitFold d s (runHours start.hour d.duration)).hoursTable) :=
    (List.perm_insertionSort hourLe _).symm
  rw [show ({ commitFold d s (runHours start.hour d.duration) with
      hoursTable := List.insertionSort hourLe
        (commitFold d s (runHours start.hour d.duration)).hoursTable } : State).hoursTable
    = List.insertionSort hourLe
        (commitFold d s (runHours start.hour d.duration)).hoursTable from rfl]
  rw [← getHourItem_perm hWFfold hperm hh]
  exact commitFold_get hWF (runHours_nodup hd24) hh

theorem createHoursTable_map_hour (maxPower : ℚ) (rates : List Rate) :
    List.Perm ((createHoursTable maxPower rates).map (fun it : HourItem => it.hour))
      (List.range 24) := by
  have hperm := (List.perm_insertionSort priceLe
    ((List.range 24).map (initHourItem maxPower rates))).map (fun it : HourItem => it.hour)
  unfold createHoursTable
  apply hperm.trans
  rw [List.map_map]
  have : ((fun it : HourItem => it.hour) ∘ initHourItem maxPower rates) = fun i => i := rfl
  rw [this, List.map_id']

theorem createHoursTable_WF (maxPower : ℚ) (rates : List Rate) :
    WF (createHoursTable maxPower rates) :=
  createHoursTable_map_hour maxPower rates

theorem mem_createHoursTable {maxPower : ℚ} {rates : List Rate} {it : HourItem} :
    it ∈ createHoursTable maxPower rates ↔
      ∃ i ∈ List.range 24, initHourItem maxPower rates i = it := by
  unfold createHoursTable
  rw [List.mem_insertionSort, List.mem_map]

theorem createHoursTable_modesOK (maxPower : ℚ) (rates : List Rate) :
    ModesOK (createHoursTable maxPower rates) := by
  intro it hit
  rcases mem_createHoursTable.mp hit with ⟨i, _, he⟩
  rw [← he]
  rfl

theorem createHoursTable_capOK {maxPower : ℚ} (h0 : 0 ≤ maxPower) (rates : List Rate) :
    CapOK maxPower (createHoursTable maxPower rates) := by
  intro it hit
  rcases mem_createHoursTable.mp hit with ⟨i, _, he⟩
  rw [← he]
  exact ⟨h0, le_refl _⟩

theorem createDevicesTable_perm (devices : List Device) :
    List.Perm (createDevicesTable devices) devices :=
  (List.reverse_perm _).trans (List.perm_insertionSort devLe devices)

theorem processDevice_capOK {maxP : ℚ} {s : State} {d : Device}
    (hWF : WF s.hoursTable) (hCap : CapOK maxP s.hoursTable) (hdp : 0 ≤ d.power) :
    CapOK maxP (processDevice s d).hoursTable := by
  rw [processDevice_eq]
  by_cases h0 : (getPotentialHours s.hoursTable d).length = 0
  · rw [if_pos h0]
    exact hCap
  · rw [if_neg h0]
    by_cases h1 : (getPotentialHours s.hoursTable d).length < d.duration
    · rw [if_pos h1]
      exact hCap
    · rw [if_neg h1]
      by_cases h2 : (getReallyAvailableHours s.hoursTable
          (getPotentialHours s.hoursTable d) d).length = 0
      · rw [if_pos h2]
        exact hCap
      · rw [if_neg h2]
        have hstart : (getReallyAvailableHours s.hoursTable
            (getPotentialHours s.hoursTable d) d).head? = some
              (getReallyAvailableHours s.hoursTable
                (getPotentialHours s.hoursTable d) d).headI := head?_headI h2
        obtain ⟨hmem, hs24, hd24, hget, hmodecond, hpow, hft, htp⟩ :=
          contHead_facts hWF h1 hstart
        have hpowers := run_powers hWF h1 hstart
        intro it hit
        have hWF2 := scheduleDevice_WF hWF ((getReallyAvailableHours s.hoursTable (getPotentialHours s.hoursTable d) d).headI) d
        rcases (mem_iff_getHourItem hWF2).mp hit with ⟨h, hh, hgo⟩
        rw [← hgo, scheduleDevice_get hWF hs24 hd24 hh]
        have hold := hCap (getHourItem s.hoursTable h) (getHourItem_mem hWF hh).1
        by_cases hmemh : h ∈ runHours ((getReallyAvailableHours s.hoursTable
            (getPotentialHours s.hoursTable d) d).headI).hour d.duration
        · rw [if_pos hmemh]
          have hge := hpowers h hmemh
          constructor
          · exact sub_nonneg.mpr hge
          · exact le_trans (sub_le_self _ hdp) hold.2
        · rw [if_neg hmemh]
          exact hold

theorem createSchedule_WF_capOK {maxP : ℚ} {s : State} (hWF : WF s.hoursTable)
    (hCap : CapOK maxP s.hoursTable) (L : List Device)
    (hL : ∀ d ∈ L, 0 ≤ d.power) :
    WF (createSchedule s L).hoursTable ∧ CapOK maxP (createSchedule s L).hoursTable := by
  induction L generalizing s with
  | nil => exact ⟨hWF, hCap⟩
  | cons d L ih =>
    exact ih (processDevice_WF hWF d)
      (processDevice_capOK hWF hCap (hL d (List.mem_cons_self d L)))
      (fun d2 hd2 => hL d2 (List.mem_cons_of_mem d hd2))

/-- Claim C2: for every input with positive device powers and positive
`maxPower`, at every point of the device loop (after any prefix of the
ranked devices has been processed) every remaining capacity lies between
0 and `maxPower`: an infeasible placement is rejected by the checks, and
a committed placement only subtracts power it verified to be available,
never clamping. -/
theorem initState_hoursTable (input : Input) :
    (initState input).hoursTable = createHoursTable input.maxPower input.rates := by
  simp only [initState]

theorem capacity_never_negative_nor_clamped
    (input : Input) (hmp : 0 < input.maxPower)
    (hdp : ∀ d ∈ input.devices, 0 < d.power)
    (pre suf : List Device)
    (hsplit : createDevicesTable input.devices = pre ++ suf) :
    CapOK input.maxPower (createSchedule (initState input) pre).hoursTable := by
  have hWF0 : WF (initState input).hoursTable := by
    rw [initState_hoursTable]
    exact createHoursTable_WF input.maxPower input.rates
  have hCap0 : CapOK input.maxPower (initState input).hoursTable := by
    rw [initState_hoursTable]
    exact createHoursTable_capOK (le_of_lt hmp) input.rates
  have hpre : ∀ d ∈ pre, 0 ≤ d.power := by
    intro d hd
    have hd2 : d ∈ createDevicesTable input.devices := by
      rw [hsplit]
      exact List.mem_append_left _ hd
    exact le_of_lt (hdp d ((createDevicesTable_perm input.devices).mem_iff.mp hd2))
  exact (createSchedule_WF_capOK hWF0 hCap0 pre hpre).2

theorem capacity_never_negative_nor_clamped_witness :
    CapOK wInput.maxPower (createSchedule (initState wInput) [wDevice]).hoursTable :=
  capacity_never_negative_nor_clamped wInput (by decide) (by decide)
    [wDevice] [] (by decide)

/-! ### Registry order: counterexample input and lemmas -/

theorem createSchedule_WF {s : State} (hWF : WF s.hoursTable) (L : List Device) :
    WF (createSchedule s L).hoursTable := by
  induction L generalizing s with
  | nil => exact hWF
  | cons d L ih => exact ih (processDevice_WF hWF d)

theorem processDevice_sorted_of_no_error {s : State} {d : Device}
    (herr : (processDevice s d).errors = s.errors) :
    List.Sorted hourLe (processDevice s d).hoursTable := by
  rw [processDevice_eq] at herr ⊢
  by_cases h0 : (getPotentialHours s.hoursTable d).length = 0
  · rw [if_pos h0] at herr
    have hlen := congrArg List.length herr
    simp at hlen
  · rw [if_neg h0] at herr ⊢
    by_cases h1 : (getPotentialHours s.hoursTable d).length < d.duration
    · rw [if_pos h1] at herr
      have hlen := congrArg List.length herr
      simp at hlen
    · rw [if_neg h1] at herr ⊢
      by_cases h2 : (getReallyAvailableHours s.hoursTable
          (getPotentialHours s.hoursTable d) d).length = 0
      · rw [if_pos h2] at herr
        have hlen := congrArg List.length herr
        simp at hlen
      · rw [if_neg h2]
        rw [scheduleDevice_eq_commitFold]
        exact List.sorted_insertionSort hourLe _

/-- Claim C5 (amended): the registry always holds exactly 24 slots with
pairwise-distinct hour indices 0 to 23; and ascending-by-hour order holds
whenever the previous device was actually committed (the re-sort happens
only inside the commit, so after a rejected device the order is whatever
it was before — initially the price order of construction). -/
theorem registry_wf_and_sorted_after_commit
    (input : Input) (pre : List Device) (d : Device) :
    WF (createSchedule (initState input) pre).hoursTable ∧
    ((processDevice (createSchedule (initState input) pre) d).errors
        = (createSchedule (initState input) pre).errors →
      List.Sorted hourLe (processDevice (createSchedule (initState input) pre) d).hoursTable) := by
  have hWF0 : WF (initState input).hoursTable := by
    rw [initState_hoursTable]
    exact createHoursTable_WF input.maxPower input.rates
  exact ⟨createSchedule_WF hWF0 pre, fun herr => processDevice_sorted_of_no_error herr⟩

attribute [local semireducible] Rat.add Rat.mul Rat.inv Rat.sub in
theorem registry_wf_and_sorted_after_commit_witness :
    List.Sorted hourLe
      (processDevice (createSchedule (initState wInput) []) wDevice).hoursTable :=
  (registry_wf_and_sorted_after_commit wInput [] wDevice).2 (by decide)

attribute [local semireducible] Rat.add Rat.mul Rat.inv Rat.sub in
/-- Claim C5 counterexample: on `cexInput5` the devices table has two
devices, the first is rejected, and when the Placer begins the second
device the registry is not in ascending hour order (hour 12 comes
first). -/
theorem registry_sorted_before_every_device_counterexample :
    (createDevicesTable cexInput5.devices).length = 2 ∧
    ((createSchedule (initState cexInput5)
        ((createDevicesTable cexInput5.devices).take 1)).hoursTable.map
      (fun it : HourItem => it.hour)) ≠ List.range 24 := by
  constructor
  · decide
  · decide

/-! ### Cost accounting -/

theorem processDevice_moneyInv {s : State} (hM : MoneyInv s) (d : Device) :
    MoneyInv (processDevice s d) := by
  rw [processDevice_eq]
  by_cases h0 : (getPotentialHours s.hoursTable d).length = 0
  · rw [if_pos h0]
    exact hM
  · rw [if_neg h0]
    by_cases h1 : (getPotentialHours s.hoursTable d).length < d.duration
    · rw [if_pos h1]
      exact hM
    · rw [if_neg h1]
      by_cases h2 : (getReallyAvailableHours s.hoursTable
          (getPotentialHours s.hoursTable d) d).length = 0
      · rw [if_pos h2]
        exact hM
      · rw [if_neg h2]
        exact scheduleDevice_moneyInv hM _ d

theorem createSchedule_moneyInv {s : State} (hM : MoneyInv s) (L : List Device) :
    MoneyInv (createSchedule s L) := by
  induction L generalizing s with
  | nil => exact hM
  | cons d L ih => exact ih (processDevice_moneyInv hM d)

/-- Claim C9: after all devices are processed and before output rounding,
the sum of the per-device accumulated costs equals the accumulated total
cost (each commit adds the identical amount to both accumulators). -/
theorem device_money_sums_to_total (input : Input) :
    ((runSchedule input).deviceMoneySpent.map Prod.snd).sum
      = (runSchedule input).totalMoneySpent := by
  have h0 : MoneyInv (initState input) := by
    constructor
    · simp [initState, keysNodup]
    · simp [initState]
  exact ((createSchedule_moneyInv h0 (createDevicesTable input.devices)).2).symm

/-! ### Device ranking: stability analysis -/

theorem filter_key_orderedInsert_pos (a : Device) (l : List Device) (k : ℚ)
    (ha : a.power * a.duration = k) :
    (List.orderedInsert devLe a l).filter (fun x : Device => x.power * x.duration = k)
      = a :: l.filter (fun x : Device => x.power * x.duration = k) := by
  induction l with
  | nil => simp [List.orderedInsert, ha]
  | cons b t ih =>
    rw [List.orderedInsert]
    by_cases hle : devLe a b
    · rw [if_pos hle]
      exact List.filter_cons_of_pos (by simp [ha])
    · rw [if_neg hle]
      have hbk : ¬ (b.power * b.duration = k) := by
        intro hbk
        exact hle (le_of_eq (ha.trans hbk.symm))
      rw [List.filter_cons_of_neg (by simp [hbk]), ih,
        List.filter_cons_of_neg (by simp [hbk])]

theorem filter_key_orderedInsert_neg (a : Device) (l : List Device) (k : ℚ)
    (ha : ¬ a.power * a.duration = k) :
    (List.orderedInsert devLe a l).filter (fun x : Device => x.power * x.duration = k)
      = l.filter (fun x : Device => x.power * x.duration = k) := by
  induction l with
  | nil => simp [List.orderedInsert, ha]
  | cons b t ih =>
    rw [List.orderedInsert]
    by_cases hle : devLe a b
    · rw [if_pos hle]
      exact List.filter_cons_of_neg (by simp [ha])
    · rw [if_neg hle]
      by_cases hbk : b.power * b.duration = k
      · rw [List.filter_cons_of_pos (by simp [hbk]), ih,
          List.filter_cons_of_pos (by simp [hbk])]
      · rw [List.filter_cons_of_neg (by simp [hbk]), ih,
          List.filter_cons_of_neg (by simp [hbk])]

theorem insertionSort_filter_key (l : List Device) (k : ℚ) :
    (List.insertionSort devLe l).filter (fun x : Device => x.power * x.duration = k)
      = l.filter (fun x : Device => x.power * x.duration = k) := by
  induction l with
  | nil => rfl
  | cons a t ih =>
    rw [List.insertionSort]
    by_cases ha : a.power * a.duration = k
    · rw [filter_key_orderedInsert_pos a _ k ha, ih,
        List.filter_cons_of_pos (by simp [ha])]
    · rw [filter_key_orderedInsert_neg a _ k ha, ih,
        List.filter_cons_of_neg (by simp [ha])]

/-- Claim C3 (amended): the devices table is a permutation of the input
with the same length, sorted descending by footprint `power * duration`,
and deterministic; but devices with EQUAL footprints appear in REVERSED
relative input order (the stable ascending sort is followed by a
reversal), not in preserved input order. -/
theorem devices_table_sorted_desc_ties_reversed (devices : List Device) (k : ℚ) :
    List.Perm (createDevicesTable devices) devices ∧
    (createDevicesTable devices).length = devices.length ∧
    (createDevicesTable devices).Pairwise
      (fun a b => b.power * (b.duration : ℚ) ≤ a.power * (a.duration : ℚ)) ∧
    (createDevicesTable devices).filter (fun x : Device => x.power * x.duration = k)
      = (devices.filter (fun x : Device => x.power * x.duration = k)).reverse := by
  refine ⟨createDevicesTable_perm devices, (createDevicesTable_perm devices).length_eq,
    ?_, ?_⟩
  · unfold createDevicesTable
    rw [List.pairwise_reverse]
    have hs := List.sorted_insertionSort devLe devices
    exact hs
  · unfold createDevicesTable
    rw [List.filter_reverse, insertionSort_filter_key]

attribute [local semireducible] Rat.add Rat.mul Rat.inv Rat.sub in
/-- Claim C3 counterexample: two distinct devices with equal footprints
come out of `createDevicesTable` in reversed input order, so the stable
input-order tie-break stated by the claim does not hold. -/
theorem devices_table_stable_tie_counterexample :
    cexDev1.power * cexDev1.duration = cexDev2.power * cexDev2.duration ∧
    cexDev1 ≠ cexDev2 ∧
    createDevicesTable [cexDev1, cexDev2] = [cexDev2, cexDev1] ∧
    ([cexDev2, cexDev1] : List Device) ≠ [cexDev1, cexDev2] := by
  refine ⟨by decide, by decide, by decide, by decide⟩

/-! ### Hour price characterization -/

theorem hourPrice_foldl_facts (L : List Rate) (c : ℚ) :
    (L.foldl (fun price rate => if rate.value < price then rate.value else price) c ≤ c) ∧
    (∀ r ∈ L,
      L.foldl (fun price rate => if rate.value < price then rate.value else price) c
        ≤ r.value) ∧
    (L.foldl (fun price rate => if rate.value < price then rate.value else price) c = c ∨
      ∃ r ∈ L,
        L.foldl (fun price rate => if rate.value < price then rate.value else price) c
          = r.value) := by
  induction L generalizing c with
  | nil => simp
  | cons a t ih =>
    rw [List.foldl_cons]
    rcases ih (if a.value < c then a.value else c) with ⟨ihle, ihmem, ihcase⟩
    have hc2c : (if a.value < c then a.value else c) ≤ c := by
      by_cases hac : a.value < c
      · rw [if_pos hac]
        exact le_of_lt hac
      · rw [if_neg hac]
    have hc2a : (if a.value < c then a.value else c) ≤ a.value := by
      by_cases hac : a.value < c
      · rw [if_pos hac]
      · rw [if_neg hac]
        exact not_lt.mp hac
    refine ⟨le_trans ihle hc2c, ?_, ?_⟩
    · intro r hr
      rcases List.mem_cons.mp hr with rfl | hr2
      · exact le_trans ihle hc2a
      · exact ihmem r hr2
    · rcases ihcase with hcc | ⟨r, hr, he⟩
      · by_cases hac : a.value < c
        · right
          exact ⟨a, List.mem_cons_self a t, by rw [hcc, if_pos hac]⟩
        · left
          rw [hcc, if_neg hac]
      · right
        exact ⟨r, List.mem_cons_of_mem a hr, he⟩

/-- Claim C4 (amended): the price stored in the HourSlot for each hour
equals the minimum of the sentinel 999 and the `value`s of the rate
intervals covering that hour — the minimum covering value when that
minimum is below 999, otherwise capped at 999 — and equals the sentinel
999 when no interval covers the hour. -/
theorem slot_price_is_min_covering_capped (rates : List Rate) (maxPower : ℚ)
    (hour : ℕ) (hh : hour < 24) :
    (getHourItem (createHoursTable maxPower rates) hour).price = hourPrice rates hour ∧
    (getRatesForHour rates hour = [] → hourPrice rates hour = 999) ∧
    hourPrice rates hour ≤ 999 ∧
    (∀ r ∈ getRatesForHour rates hour, hourPrice rates hour ≤ r.value) ∧
    (hourPrice rates hour = 999 ∨
      ∃ r ∈ getRatesForHour rates hour, hourPrice rates hour = r.value) := by
  have hWFt := createHoursTable_WF maxPower rates
  have hmem : initHourItem maxPower rates hour ∈ createHoursTable maxPower rates :=
    mem_createHoursTable.mpr ⟨hour, List.mem_range.mpr hh, rfl⟩
  rcases hourPrice_foldl_facts (getRatesForHour rates hour) 999 with ⟨h999, hmemle, hcase⟩
  refine ⟨?_, ?_, h999, hmemle, hcase⟩
  · rw [getHourItem_of_mem hWFt.nodup_hours hmem
      (show (initHourItem maxPower rates hour).hour = hour from rfl)]
    rfl
  · intro hemp
    unfold hourPrice
    rw [hemp]
    rfl

/-- Claim C4 counterexample: the interval `[0,1)` with value 1000 is the
only interval covering hour 0, but the stored price is the sentinel 999,
not the minimum covering value 1000. -/
theorem slot_price_min_counterexample :
    (getRatesForHour [cexRate4] 0).map Rate.value = [1000] ∧
    (getHourItem (createHoursTable 100 [cexRate4]) 0).price = 999 ∧
    ((999 : ℚ) ≠ 1000) := by
  refine ⟨by decide, by decide, by decide⟩

theorem slot_price_is_min_covering_capped_witness :
    (getHourItem (createHoursTable 100 []) 5).price = hourPrice [] 5 :=
  (slot_price_is_min_covering_capped [] 100 5 (by decide)).1

/-! ### Interval membership semantics -/

/-- Claim C7: for every time at most 23 the wrapped and non-wrapped
interval semantics hold with an inclusive `from` bound and an exclusive
`to` bound, and every time above 23 raises the error instead of returning
a boolean. -/
theorem isTimeIncludes_semantics (time tfrom tto : ℤ) :
    (time ≤ 23 → tfrom > tto →
      (isTimeIncludes time tfrom tto = Except.ok true ↔
        (tfrom ≤ time ∨ (0 ≤ time ∧ time < tto)))) ∧
    (time ≤ 23 → tfrom ≤ tto →
      (isTimeIncludes time tfrom tto = Except.ok true ↔
        (tfrom ≤ time ∧ time < tto))) ∧
    (time > 23 → isTimeIncludes time tfrom tto
      = Except.error "Time argument can not be bigger than 23 hours") := by
  unfold isTimeIncludes timeIncludesB
  refine ⟨?_, ?_, ?_⟩
  · intro ht hgt
    rw [if_neg (not_lt.mpr ht), if_pos hgt]
    simp
  · intro ht hle
    rw [if_neg (not_lt.mpr ht), if_neg (not_lt.mpr hle)]
    simp
  · intro ht
    rw [if_pos ht]

theorem isTimeIncludes_semantics_witness :
    isTimeIncludes 1 0 3 = Except.ok true :=
  ((isTimeIncludes_semantics 1 0 3).2.1 (by decide) (by decide)).mpr (by decide)

/-- Claim C8: hours in [0,7) and [21,24) are night, hours in [7,21) are
day. -/
theorem mode_night_day (h : ℕ) :
    ((h < 7 ∨ (21 ≤ h ∧ h < 24)) → getModeForHour h = "night") ∧
    ((7 ≤ h ∧ h < 21) → getModeForHour h = "day") := by
  unfold getModeForHour
  constructor
  · intro hc
    rw [if_pos]
    rcases hc with h1 | ⟨h1, _⟩
    · exact Or.inl h1
    · exact Or.inr h1
  · rintro ⟨h1, h2⟩
    rw [if_neg (by omega)]

theorem mode_night_day_witness : getModeForHour 3 = "night" :=
  (mode_night_day 3).1 (Or.inl (by decide))

/-! ### Empty intervals -/

theorem timeIncludesB_empty (t b : ℤ) : timeIncludesB t b b = false := by
  unfold timeIncludesB
  rw [if_neg (lt_irrefl b)]
  by_cases h1 : b ≤ t
  · have h2 : ¬ t < b := not_lt.mpr h1
    simp [h2]
  · simp [h1]

/-- Claim C10: an interval whose `from` hour equals its `to` hour covers
no time at all (it is empty, not a full-day wrap), so such a rate never
matches any hour and never contributes to any stored price. -/
theorem empty_interval_covers_nothing (time b : ℤ) (h0 : 0 ≤ time)
    (h23 : time ≤ 23) (rate : Rate) (heq : rate.rfrom = rate.rto) (hour : ℕ)
    (hh : hour < 24) :
    isTimeIncludes time b b = Except.ok false ∧
    (∀ rates : List Rate, rate ∉ getRatesForHour rates hour) ∧
    (∀ rates : List Rate, hourPrice (rate :: rates) hour = hourPrice rates hour) := by
  have hpred : timeIncludesB (hour : ℤ) rate.rfrom rate.rto = false := by
    rw [heq]
    exact timeIncludesB_empty _ _
  refine ⟨?_, ?_, ?_⟩
  · unfold isTimeIncludes
    rw [if_neg (not_lt.mpr h23), timeIncludesB_empty]
  · intro rates hmem
    have h2 := (List.mem_filter.mp hmem).2
    rw [hpred] at h2
    exact Bool.false_ne_true h2
  · intro rates
    unfold hourPrice getRatesForHour
    rw [List.filter_cons_of_neg (by rw [hpred]; exact Bool.false_ne_true)]

theorem empty_interval_covers_nothing_witness :
    isTimeIncludes 0 5 5 = Except.ok false :=
  (empty_interval_covers_nothing 0 5 (by decide) (by decide) ⟨5, 5, 1⟩ rfl 0
    (by decide)).1

/-! ### Identifier tracking for unplaced devices -/

theorem commitHour_idUsed {d : Device} {s : State} {target : ℕ} {x : String}
    (h : idUsed (commitHour d s target) x) : idUsed s x ∨ x = d.id := by
  rcases h with ⟨it, hit, hx⟩ | ⟨q, hq⟩
  · have hit2 : it ∈ updateHourItem s.hoursTable target (fun it2 =>
        { it2 with power := it2.power - d.power
                   workers := it2.workers ++ [d.name]
                   workers_id := it2.workers_id ++ [d.id] }) := hit
    rcases List.mem_map.mp hit2 with ⟨a, ha, he⟩
    by_cases hc : a.hour = target
    · rw [if_pos hc] at he
      rw [← he] at hx
      have hx2 : x ∈ a.workers_id ++ [d.id] := hx
      rcases List.mem_append.mp hx2 with h1 | h1
      · exact Or.inl (Or.inl ⟨a, ha, h1⟩)
      · exact Or.inr (List.mem_singleton.mp h1)
    · rw [if_neg hc] at he
      rw [← he] at hx
      exact Or.inl (Or.inl ⟨a, ha, hx⟩)
  · have hq2 : (x, q) ∈ addSpent s.deviceMoneySpent d.id
        (d.power / 1000 * (getHourItem s.hoursTable target).price) := hq
    rcases addSpent_mem hq2 with h1 | h1
    · rcases List.mem_map.mp h1 with ⟨p, hp, he⟩
      have he2 : p.1 = x := he
      refine Or.inl (Or.inr ⟨p.2, ?_⟩)
      rw [← he2]
      exact hp
    · exact Or.inr h1

theorem commitFold_idUsed {d : Device} {s : State} {targets : List ℕ} {x : String}
    (h : idUsed (commitFold d s targets) x) : idUsed s x ∨ x = d.id := by
  induction targets generalizing s with
  | nil => exact Or.inl h
  | cons t ts ih =>
    have h2 : idUsed (commitFold d (commitHour d s t) ts) x := h
    rcases ih h2 with h3 | h3
    · exact commitHour_idUsed h3
    · exact Or.inr h3

theorem scheduleDevice_idUsed {s : State} {st : CalcHour} {d : Device} {x : String}
    (h : idUsed (scheduleDevice s st d) x) : idUsed s x ∨ x = d.id := by
  rw [scheduleDevice_eq_commitFold] at h
  rcases h with ⟨it, hit, hx⟩ | hsp
  · have hit2 : it ∈ List.insertionSort hourLe
        (commitFold d s ((List.range d.duration).map
          (fun i => wrapHour (st.hour + i)))).hoursTable := hit
    rw [List.mem_insertionSort] at hit2
    exact commitFold_idUsed (Or.inl ⟨it, hit2, hx⟩)
  · exact commitFold_idUsed (Or.inr hsp)

theorem processDevice_idUsed {s : State} {d : Device} {x : String}
    (h : idUsed (processDevice s d) x) : idUsed s x ∨ x = d.id := by
  rw [processDevice_eq] at h
  by_cases h0 : (getPotentialHours s.hoursTable d).length = 0
  · rw [if_pos h0] at h
    exact Or.inl h
  · rw [if_neg h0] at h
    by_cases h1 : (getPotentialHours s.hoursTable d).length < d.duration
    · rw [if_pos h1] at h
      exact Or.inl h
    · rw [if_neg h1] at h
      by_cases h2 : (getReallyAvailableHours s.hoursTable
          (getPotentialHours s.hoursTable d) d).length = 0
      · rw [if_pos h2] at h
        exact Or.inl h
      · rw [if_neg h2] at h
        exact scheduleDevice_idUsed h

theorem createSchedule_idUsed {s : State} {L : List Device} {x : String}
    (h : idUsed (createSchedule s L) x) : idUsed s x ∨ x ∈ L.map Device.id := by
  induction L generalizing s with
  | nil => exact Or.inl h
  | cons d L ih =>
    have h2 : idUsed (createSchedule (processDevice s d) L) x := h
    rcases ih h2 with h3 | h3
    · rcases processDevice_idUsed h3 with h4 | h4
      · exact Or.inl h4
      · right
        rw [List.map_cons, h4]
        exact List.mem_cons_self _ _
    · right
      rw [List.map_cons]
      exact List.mem_cons_of_mem _ h3

theorem initState_not_idUsed (input : Input) (x : String) :
    ¬ idUsed (initState input) x := by
  rintro (⟨it, hit, hx⟩ | ⟨q, hq⟩)
  · have hit2 : it ∈ createHoursTable input.maxPower input.rates := by
      rw [← initState_hoursTable input]
      exact hit
    rcases mem_createHoursTable.mp hit2 with ⟨i, _, he⟩
    rw [← he] at hx
    exact absurd (show x ∈ ([] : List String) from hx) (List.not_mem_nil x)
  · exact absurd (show (x, q) ∈ ([] : List (String × ℚ)) from hq) (List.not_mem_nil _)

theorem getSchedule_schedule (input : Input) (s : State) :
    (getSchedule input s).schedule
      = s.hoursTable.map (fun hour => (hour.hour, hour.workers_id)) := by
  simp only [getSchedule]

theorem getSchedule_consumedEnergyDevices (input : Input) (s : State) :
    (getSchedule input s).consumedEnergyDevices
      = s.deviceMoneySpent.map (fun p => (p.1, roundTo 4 p.2)) := by
  simp only [getSchedule]

theorem getSchedule_devices (input : Input) (s : State) :
    (getSchedule input s).devices
      = input.devices.map (fun device => (device.id, device.name)) := by
  simp only [getSchedule]

theorem devicesTable_ids_nodup {input : Input}
    (hids : (input.devices.map Device.id).Nodup) :
    ((createDevicesTable input.devices).map Device.id).Nodup :=
  (((createDevicesTable_perm input.devices).map Device.id)).nodup_iff.mpr hids

/-- Case analysis of one device step: either exactly one of the three
diagnostics is appended and nothing else changes, or the device was
committed and the diagnostics list is untouched. -/
theorem processDevice_cases (s : State) (d : Device) :
    (∃ msg, (msg = "No more space available for " ++ d.name ∨
             msg = "Not enough available hours for " ++ d.name ∨
             msg = "Not enough available continuous hours for " ++ d.name) ∧
      processDevice s d = { s with errors := s.errors ++ [msg] }) ∨
    ((processDevice s d).errors = s.errors) := by
  by_cases h0 : (getPotentialHours s.hoursTable d).length = 0
  · left
    refine ⟨"No more space available for " ++ d.name, Or.inl rfl, ?_⟩
    rw [processDevice_eq, if_pos h0]
  · by_cases h1 : (getPotentialHours s.hoursTable d).length < d.duration
    · left
      refine ⟨"Not enough available hours for " ++ d.name, Or.inr (Or.inl rfl), ?_⟩
      rw [processDevice_eq, if_neg h0, if_pos h1]
    · by_cases h2 : (getReallyAvailableHours s.hoursTable
          (getPotentialHours s.hoursTable d) d).length = 0
      · left
        refine ⟨"Not enough available continuous hours for " ++ d.name,
          Or.inr (Or.inr rfl), ?_⟩
        rw [processDevice_eq, if_neg h0, if_neg h1, if_pos h2]
      · right
        rw [processDevice_eq, if_neg h0, if_neg h1, if_neg h2]
        exact scheduleDevice_errors s _ d

/-- Claim C6: a device whose step records an error gets exactly one
diagnostic, of one of the three classified forms, with nothing else
changed by its step; the run continues (the fold is total), and with
unique device ids the device contributes no occupant entry to any hour of
the output schedule and no key to the per-device cost map, while still
appearing in the output id-to-name device mapping. -/
theorem unplaced_device_diagnosed_and_absent
    (input : Input) (pre suf : List Device) (d : Device)
    (hsplit : createDevicesTable input.devices = pre ++ d :: suf)
    (hids : (input.devices.map Device.id).Nodup)
    (herr : (processDevice (createSchedule (initState input) pre) d).errors
      ≠ (createSchedule (initState input) pre).errors) :
    (∃ msg, (msg = "No more space available for " ++ d.name ∨
             msg = "Not enough available hours for " ++ d.name ∨
             msg = "Not enough available continuous hours for " ++ d.name) ∧
      processDevice (createSchedule (initState input) pre) d =
        { createSchedule (initState input) pre with
            errors := (createSchedule (initState input) pre).errors ++ [msg] }) ∧
    (∀ entry ∈ (getSchedule input (runSchedule input)).schedule, d.id ∉ entry.2) ∧
    (∀ q, (d.id, q) ∉ (getSchedule input (runSchedule input)).consumedEnergyDevices) ∧
    ((d.id, d.name) ∈ (getSchedule input (runSchedule input)).devices) := by
  have hfail := (processDevice_cases (createSchedule (initState input) pre) d).resolve_right
    herr
  have hfin : runSchedule input
      = createSchedule (processDevice (createSchedule (initState input) pre) d) suf := by
    unfold runSchedule createSchedule
    rw [hsplit, List.foldl_append, List.foldl_cons]
  have hnid : ¬ idUsed (runSchedule input) d.id := by
    intro hu
    rw [hfin] at hu
    have hnd := devicesTable_ids_nodup hids
    rw [hsplit, List.map_append, List.map_cons] at hnd
    rcases List.nodup_append.mp hnd with ⟨hndpre, hndcons, hdisj⟩
    rcases createSchedule_idUsed hu with hu2 | hmemsuf
    · rcases hfail with ⟨msg, _, heqs⟩
      rw [heqs] at hu2
      have hu3 : idUsed (createSchedule (initState input) pre) d.id := hu2
      rcases createSchedule_idUsed hu3 with hu4 | hmempre
      · exact initState_not_idUsed input d.id hu4
      · exact (hdisj hmempre) (List.mem_cons_self _ _)
    · exact (List.nodup_cons.mp hndcons).1 hmemsuf
  refine ⟨hfail, ?_, ?_, ?_⟩
  · intro entry hentry hxin
    rw [getSchedule_schedule] at hentry
    rcases List.mem_map.mp hentry with ⟨it, hit, he⟩
    apply hnid
    left
    refine ⟨it, hit, ?_⟩
    rw [← he] at hxin
    exact hxin
  · intro q hq
    rw [getSchedule_consumedEnergyDevices] at hq
    rcases List.mem_map.mp hq with ⟨p, hp, he⟩
    apply hnid
    right
    have hfst : p.1 = d.id := congrArg Prod.fst he
    refine ⟨p.2, ?_⟩
    rw [← hfst]
    exact hp
  · rw [getSchedule_devices]
    have hd : d ∈ input.devices := by
      have hd2 : d ∈ createDevicesTable input.devices := by
        rw [hsplit]
        exact List.mem_append_right _ (List.mem_cons_self _ _)
      exact (createDevicesTable_perm input.devices).mem_iff.mp hd2
    exact List.mem_map_of_mem _ hd

attribute [local semireducible] Rat.add Rat.mul Rat.inv Rat.sub in
theorem unplaced_device_diagnosed_and_absent_witness :
    ((⟨"c", "Collider", 10000, 1, none⟩ : Device).id,
      (⟨"c", "Collider", 10000, 1, none⟩ : Device).name)
      ∈ (getSchedule cexInput6 (runSchedule cexInput6)).devices :=
  (unplaced_device_diagnosed_and_absent cexInput6 [] []
    ⟨"c", "Collider", 10000, 1, none⟩ (by decide) (by decide) (by decide)).2.2.2
